import Mathlib

/-!
Shallow embedding of the CipherSuite C++ sources (Caesar.hpp, Vigenere.hpp,
Atbash.hpp, A1Z26.hpp, Encryptions.hpp) and verification of the frozen
claims about them.

Modelling conventions:
* A C++ `char` of a `std::string` is modelled as its byte value, a `Nat`
  (the stored bit pattern; on the reference platform `char` is 8 bits).
* Conversion of an `int` expression back to `char` keeps the low byte,
  `toChar x = (x % 256).toNat`; for values in `[0,127]` this is the identity,
  matching the C++ value, and for larger values it is the stored bit
  pattern of the implementation-defined narrowing.
* `<cctype>` classifiers are the C-locale ASCII ones (glibc returns false
  for every non-ASCII byte value).
* C++ `%` on `int` truncates toward zero: it is modelled by `Int.tmod`.
* C++ `%` where one operand is `size_t` (`i % messageKey.size()`) is a
  `Nat` modulo; modulo by zero is undefined behaviour and is modelled by
  `Option`, returning `none`.
-/

/-- Narrowing conversion of a C++ `int` arithmetic result to the byte stored
in a `std::string` (the low 8 bits of the two's-complement value). -/
def toChar (x : Int) : Nat := (x % 256).toNat

/-- `std::isupper` in the C locale. -/
def isupperB (c : Nat) : Bool := 65 ≤ c && c ≤ 90

/-- `std::islower` in the C locale. -/
def islowerB (c : Nat) : Bool := 97 ≤ c && c ≤ 122

/-- `std::isalpha` in the C locale. -/
def isalphaB (c : Nat) : Bool := isupperB c || islowerB c

/-- `std::isdigit` in the C locale. -/
def isdigitB (c : Nat) : Bool := 48 ≤ c && c ≤ 57

/-- `std::tolower` in the C locale. -/
def tolowerB (c : Nat) : Nat := if isupperB c then c + 32 else c

/-- State of a `Caesar` object: the inherited `message` and
`encrypted_message` fields plus the private `key`. -/
structure CaesarState where
  message : List Nat
  encrypted_message : List Nat
  key : Int

namespace Caesar

/-- `Caesar::setKey`: `key = ((k % 26) + 26) % 26` with C++ truncating `%`. -/
def setKey (k : Int) : Int := ((Int.tmod k 26) + 26).tmod 26

/-- `Caesar::encryptChar`: `(c - 'A' + key) + 'A'` (no modulo in the source). -/
def encryptChar (key : Int) (c : Nat) : Nat :=
  if isupperB c then toChar ((c : Int) - 65 + key + 65)
  else if islowerB c then toChar ((c : Int) - 97 + key + 97)
  else c

/-- `Caesar::decryptChar`: `(c - 'A' - key) + 'A'` (no modulo in the source). -/
def decryptChar (key : Int) (c : Nat) : Nat :=
  if isupperB c then toChar ((c : Int) - 65 - key + 65)
  else if islowerB c then toChar ((c : Int) - 97 - key + 97)
  else c

/-- The append loop of `Caesar::encrypt`, starting from accumulator `acc`. -/
def encryptLoop (key : Int) : List Nat → List Nat → List Nat
  | acc, [] => acc
  | acc, c :: rest =>
    if isalphaB c then encryptLoop key (acc ++ [encryptChar key c]) rest
    else encryptLoop key (acc ++ [c]) rest

/-- The append loop of `Caesar::decrypt`. -/
def decryptLoop (key : Int) : List Nat → List Nat → List Nat
  | acc, [] => acc
  | acc, c :: rest =>
    if isalphaB c then decryptLoop key (acc ++ [decryptChar key c]) rest
    else decryptLoop key (acc ++ [c]) rest

/-- `Caesar::encrypt`: clears `encrypted_message`, then appends per character. -/
def encrypt (s : CaesarState) : CaesarState :=
  ⟨s.message, encryptLoop s.key [] s.message, s.key⟩

/-- `Caesar::decrypt`: clears `encrypted_message`, then appends per character. -/
def decrypt (s : CaesarState) : CaesarState :=
  ⟨s.message, decryptLoop s.key [] s.message, s.key⟩

/-- Fresh instance run: `setKey(k); setMessage(m); encrypt(); getEncryptedMessage()`. -/
def encryptStr (k : Int) (m : List Nat) : List Nat :=
  (encrypt ⟨m, [], setKey k⟩).encrypted_message

/-- Fresh instance run of the backward transform. -/
def decryptStr (k : Int) (m : List Nat) : List Nat :=
  (decrypt ⟨m, [], setKey k⟩).encrypted_message

end Caesar

/-- The forward per-character transform exactly as the claim states it:
`((c - 'A' + key) mod 26) + 'A'` for uppercase, `((c - 'a' + key) mod 26) + 'a'`
for lowercase, other characters unchanged (key already normalized to [0,25]). -/
def ShiftSpec.encryptChar (key : Nat) (c : Nat) : Nat :=
  if isupperB c then (c - 65 + key) % 26 + 65
  else if islowerB c then (c - 97 + key) % 26 + 97
  else c

/-- State of a `Vigenere` object: the inherited `message` and
`encrypted_message` fields plus the private `messageKey`. -/
structure VigenereState where
  message : List Nat
  encrypted_message : List Nat
  messageKey : List Nat

namespace Vigenere

/-- `Vigenere::setKeyMessage`: stores any string, with no validation. -/
def setKeyMessage (s : VigenereState) (n : List Nat) : VigenereState :=
  ⟨s.message, s.encrypted_message, n⟩

/-- The index expression `i % messageKey.size()`; `none` models the undefined
modulo-by-zero when the keyword is empty. -/
def keyIndex (i : Nat) (size : Nat) : Option Nat :=
  if size = 0 then none else some (i % size)

/-- `Vigenere::encryptKeyChar`: 1-based alphabet position of a letter
(`c - 65 + 1` / `c - 97 + 1`), 0 for any non-letter. -/
def encryptKeyChar (c : Nat) : Int :=
  if isupperB c then (c : Int) - 65 + 1
  else if islowerB c then (c : Int) - 97 + 1
  else 0

/-- `Vigenere::encryptChar`: `c - 'A' + encryptKeyChar(messageKey[i % size]) + 'A'`
(no modulo in the source). -/
def encryptChar (key : List Nat) (c : Nat) (i : Nat) : Option Nat :=
  if isupperB c then
    (keyIndex i key.length).map fun j =>
      toChar ((c : Int) - 65 + encryptKeyChar (key.getD j 0) + 65)
  else if islowerB c then
    (keyIndex i key.length).map fun j =>
      toChar ((c : Int) - 97 + encryptKeyChar (key.getD j 0) + 97)
  else some c

/-- `Vigenere::decryptChar`: reads `letter = messageKey[k % size]`, takes
`shift = (isupper(letter) ? letter - 'A' : letter - 'a') + 1` (any non-upper
character is treated via the lowercase branch), then
`(c - base - shift + 26) % 26 + base` with C++ truncating `%`. -/
def decryptChar (key : List Nat) (c : Nat) (k : Nat) : Option Nat :=
  (keyIndex k key.length).map fun j =>
    let letter := key.getD j 0
    let shift : Int :=
      (if isupperB letter then (letter : Int) - 65 else (letter : Int) - 97) + 1
    if isupperB c then toChar (((c : Int) - 65 - shift + 26).tmod 26 + 65)
    else if islowerB c then toChar (((c : Int) - 97 - shift + 26).tmod 26 + 97)
    else c

/-- The append loop of `Vigenere::encrypt`: the counter advances for every
message character, letters are transformed, others pass through. -/
def encryptLoop (key : List Nat) : List Nat → Nat → List Nat → Option (List Nat)
  | acc, _, [] => some acc
  | acc, i, c :: rest =>
    if isalphaB c then
      match encryptChar key c i with
      | none => none
      | some e => encryptLoop key (acc ++ [e]) (i + 1) rest
    else encryptLoop key (acc ++ [c]) (i + 1) rest

/-- The append loop of `Vigenere::decrypt`. -/
def decryptLoop (key : List Nat) : List Nat → Nat → List Nat → Option (List Nat)
  | acc, _, [] => some acc
  | acc, i, c :: rest =>
    if isalphaB c then
      match decryptChar key c i with
      | none => none
      | some e => decryptLoop key (acc ++ [e]) (i + 1) rest
    else decryptLoop key (acc ++ [c]) (i + 1) rest

/-- `Vigenere::encrypt`: clears `encrypted_message`, then runs the loop. -/
def encrypt (s : VigenereState) : Option VigenereState :=
  (encryptLoop s.messageKey [] 0 s.message).map fun e => ⟨s.message, e, s.messageKey⟩

/-- `Vigenere::decrypt`: clears `encrypted_message`, then runs the loop. -/
def decrypt (s : VigenereState) : Option VigenereState :=
  (decryptLoop s.messageKey [] 0 s.message).map fun e => ⟨s.message, e, s.messageKey⟩

/-- Fresh instance run of the forward transform. -/
def encryptStr (key m : List Nat) : Option (List Nat) := encryptLoop key [] 0 m

/-- Fresh instance run of the backward transform. -/
def decryptStr (key m : List Nat) : Option (List Nat) := decryptLoop key [] 0 m

end Vigenere

namespace KeywordSpec

/-- The per-character keyword offset exactly as claim C9 states it: the
1-based alphabet position for letters (case-insensitive), 0 for any
non-letter keyword character. -/
def offset (k : Nat) : Int :=
  if isupperB k then (k : Int) - 65 + 1
  else if islowerB k then (k : Int) - 97 + 1
  else 0

/-- Forward per-character transform as claim C9 states it: the shift applied
at message index `i` is `offset` of keyword character `i mod keywordLength`,
applied the way the code applies it. -/
def encryptChar (key : List Nat) (c : Nat) (i : Nat) : Option Nat :=
  if isupperB c then
    (Vigenere.keyIndex i key.length).map fun j =>
      toChar ((c : Int) - 65 + offset (key.getD j 0) + 65)
  else if islowerB c then
    (Vigenere.keyIndex i key.length).map fun j =>
      toChar ((c : Int) - 97 + offset (key.getD j 0) + 97)
  else some c

/-- Backward per-character transform as claim C9 states it: the shift
subtracted at message index `k` is `offset` of keyword character
`k mod keywordLength`, with the code's wrap `(c - base - shift + 26) % 26`. -/
def decryptChar (key : List Nat) (c : Nat) (k : Nat) : Option Nat :=
  (Vigenere.keyIndex k key.length).map fun j =>
    let shift : Int := offset (key.getD j 0)
    if isupperB c then toChar (((c : Int) - 65 - shift + 26).tmod 26 + 65)
    else if islowerB c then toChar (((c : Int) - 97 - shift + 26).tmod 26 + 97)
    else c

/-- Claimed forward loop: the index advances for every message character. -/
def encryptLoop (key : List Nat) : List Nat → Nat → List Nat → Option (List Nat)
  | acc, _, [] => some acc
  | acc, i, c :: rest =>
    if isalphaB c then
      match encryptChar key c i with
      | none => none
      | some e => encryptLoop key (acc ++ [e]) (i + 1) rest
    else encryptLoop key (acc ++ [c]) (i + 1) rest

/-- Claimed backward loop: the index advances for every message character. -/
def decryptLoop (key : List Nat) : List Nat → Nat → List Nat → Option (List Nat)
  | acc, _, [] => some acc
  | acc, i, c :: rest =>
    if isalphaB c then
      match decryptChar key c i with
      | none => none
      | some e => decryptLoop key (acc ++ [e]) (i + 1) rest
    else decryptLoop key (acc ++ [c]) (i + 1) rest

/-- Claimed forward transform on a whole message. -/
def encryptStr (key m : List Nat) : Option (List Nat) := encryptLoop key [] 0 m

/-- Claimed backward transform on a whole message. -/
def decryptStr (key m : List Nat) : Option (List Nat) := decryptLoop key [] 0 m

end KeywordSpec

/-- State of an `Atbash` object: the inherited `message` and
`encrypted_message` fields (no key). -/
structure AtbashState where
  message : List Nat
  encrypted_message : List Nat

namespace Atbash

/-- `Atbash::encryptChar`: `90 - (c - 65)` for uppercase,
`122 - (c - 97)` for lowercase, other characters unchanged. -/
def encryptChar (c : Nat) : Nat :=
  if isupperB c then toChar (90 - ((c : Int) - 65))
  else if islowerB c then toChar (122 - ((c : Int) - 97))
  else c

/-- The append loop of `Atbash::encrypt`. -/
def encryptLoop : List Nat → List Nat → List Nat
  | acc, [] => acc
  | acc, c :: rest =>
    if isalphaB c then encryptLoop (acc ++ [encryptChar c]) rest
    else encryptLoop (acc ++ [c]) rest

/-- `Atbash::encrypt`: does not clear `encrypted_message`; it appends. -/
def encrypt (s : AtbashState) : AtbashState :=
  ⟨s.message, encryptLoop s.encrypted_message s.message⟩

/-- `Atbash::decrypt`: calls `encrypt()`. -/
def decrypt (s : AtbashState) : AtbashState := encrypt s

/-- Fresh instance run of the transform. -/
def encryptStr (m : List Nat) : List Nat :=
  (encrypt ⟨m, []⟩).encrypted_message

/-- The loop body applied to one character. -/
def step (c : Nat) : Nat := if isalphaB c then encryptChar c else c

end Atbash

/-- Per-character mirror map exactly as claim C7 states it:
uppercase `c` to `'Z' - (c - 'A')`, lowercase `c` to `'z' - (c - 'a')`,
every other character unchanged. -/
def MirrorSpec.encryptChar (c : Nat) : Nat :=
  if isupperB c then 90 - (c - 65)
  else if islowerB c then 122 - (c - 97)
  else c

/-- State of an `A1Z26` object: the inherited `message` and
`encrypted_message` fields (no key). -/
structure A1Z26State where
  message : List Nat
  encrypted_message : List Nat

namespace A1Z26

/-- `std::to_string` on an `int`; every call site in the source passes a
value in `[1, 26]`, so two decimal digits suffice. -/
def decDigits (n : Nat) : List Nat :=
  if n < 10 then [48 + n] else [48 + n / 10, 48 + n % 10]

/-- `A1Z26::encryptChar`: `c = tolower(c); c -= 96;` then
`'0' + to_string(c)` when `c < 10`, else `to_string(c)`. -/
def encryptChar (c : Nat) : List Nat :=
  let c1 := toChar ((tolowerB c : Int) - 96)
  if c1 < 10 then 48 :: decDigits c1 else decDigits c1

/-- The append loop of `A1Z26::encrypt` (no clear): letters expand to their
position digits, digits are shifted by `+ 48`, others pass through. -/
def encryptLoop : List Nat → List Nat → List Nat
  | acc, [] => acc
  | acc, c :: rest =>
    if isalphaB c then encryptLoop (acc ++ encryptChar c) rest
    else if isdigitB c then encryptLoop (acc ++ [toChar ((c : Int) + 48)]) rest
    else encryptLoop (acc ++ [c]) rest

/-- The digit-reading loop of `std::stoi` (every call site passes the result
of `substr(i, 2)` starting with a decimal digit). -/
def stoiLoop : List Nat → Nat → Nat
  | [], acc => acc
  | c :: rest, acc => if isdigitB c then stoiLoop rest (acc * 10 + (c - 48)) else acc

/-- `std::stoi` on the short digit-leading strings produced by `substr`. -/
def stoi (s : List Nat) : Nat := stoiLoop s 0

/-- The loop of `A1Z26::decrypt` (no clear): a digit consumes
`substr(i, 2)` (clamped to one character at the end of the string) and the
index advances by two; a letter re-encodes to its unpadded position digits;
anything else passes through. -/
def decryptLoop : List Nat → List Nat → List Nat
  | acc, [] => acc
  | acc, c :: rest =>
    if isdigitB c then
      match rest with
      | [] => acc ++ [toChar (97 + (stoi [c] : Int) - 1)]
      | b :: tail => decryptLoop (acc ++ [toChar (97 + (stoi [c, b] : Int) - 1)]) tail
    else if isalphaB c then decryptLoop (acc ++ decDigits (tolowerB c - 96)) rest
    else decryptLoop (acc ++ [c]) rest

/-- `A1Z26::encrypt`: does not clear `encrypted_message`; it appends. -/
def encrypt (s : A1Z26State) : A1Z26State :=
  ⟨s.message, encryptLoop s.encrypted_message s.message⟩

/-- `A1Z26::decrypt`: does not clear `encrypted_message`; it appends. -/
def decrypt (s : A1Z26State) : A1Z26State :=
  ⟨s.message, decryptLoop s.encrypted_message s.message⟩

/-- Fresh instance run of the forward (encode) direction. -/
def encryptStr (m : List Nat) : List Nat :=
  (encrypt ⟨m, []⟩).encrypted_message

/-- Fresh instance run of the backward (decode) direction. -/
def decryptStr (m : List Nat) : List Nat :=
  (decrypt ⟨m, []⟩).encrypted_message

end A1Z26

theorem caesar_setKey_eq_emod (k : Int) : Caesar.setKey k = k % 26 := by
  unfold Caesar.setKey
  rcases le_or_lt 0 k with hk | hk
  · rw [Int.tmod_eq_emod hk (by omega)]
    rw [Int.tmod_eq_emod (by have := Int.emod_nonneg k (b := 26) (by omega); omega) (by omega)]
    omega
  · have hneg : Int.tmod k 26 = -(Int.tmod (-k) 26) := by
      rw [Int.tmod_def, Int.tmod_def, Int.neg_tdiv]
      ring
    have hpos : Int.tmod (-k) 26 = (-k) % 26 := Int.tmod_eq_emod (by omega) (by omega)
    have h1 : 0 ≤ (-k) % 26 := Int.emod_nonneg (-k) (by omega)
    have h2 : (-k) % 26 < 26 := Int.emod_lt_of_pos (-k) (by omega)
    rw [hneg, hpos, Int.tmod_eq_emod (by omega) (by omega)]
    omega

/-- **C8**: the stored Caesar key after `setKey(k)` equals
`((k mod 26) + 26) mod 26` under mathematical (Euclidean) modulo, lies in
`[0,25]` for every integer `k`, and consequently encryption with raw key `k`
coincides with encryption with raw key `k + 26` on every message. -/
theorem caesar_key_normalization :
    ∀ k : Int, Caesar.setKey k = ((k % 26) + 26) % 26
      ∧ 0 ≤ Caesar.setKey k ∧ Caesar.setKey k ≤ 25
      ∧ ∀ m : List Nat, Caesar.encryptStr k m = Caesar.encryptStr (k + 26) m := by
  intro k
  have h := caesar_setKey_eq_emod k
  have h1 : 0 ≤ k % 26 := Int.emod_nonneg k (by omega)
  have h2 : k % 26 < 26 := Int.emod_lt_of_pos k (by omega)
  refine ⟨by omega, by omega, by omega, ?_⟩
  intro m
  have hkeys : Caesar.setKey k = Caesar.setKey (k + 26) := by
    rw [h, caesar_setKey_eq_emod (k + 26)]
    omega
  unfold Caesar.encryptStr Caesar.encrypt
  rw [hkeys]

/-- **C1**: the round-trip `decrypt(encrypt(M, k), k) == M` fails on the code:
with key 1 the message `"Z"` encrypts to the non-letter `'['` (byte 91, since
`encryptChar` performs no modulo), which `decrypt` then passes through
unchanged, returning `"["` instead of `"Z"`. -/
theorem caesar_roundtrip_code_eval :
    Caesar.decryptStr 1 (Caesar.encryptStr 1 [90]) = [91]
      ∧ ([91] : List Nat) ≠ [90] := by
  constructor
  · rfl
  · decide

/-- **C2**: the Caesar forward transform does not reduce modulo 26: on the
uppercase input `'Z'` (byte 90) with normalized key 1 the code produces byte
91 (`'['`), while the claimed formula `((c - 'A' + key) mod 26) + 'A'`
produces byte 65 (`'A'`). -/
theorem caesar_forward_no_modulo :
    Caesar.encryptStr 1 [90] = [91]
      ∧ ShiftSpec.encryptChar 1 90 = 65
      ∧ (91 : Nat) ≠ 65 := by
  refine ⟨rfl, rfl, by decide⟩

theorem keyIndex_some_lt {i n j : Nat} (h : Vigenere.keyIndex i n = some j) : j < n := by
  unfold Vigenere.keyIndex at h
  by_cases hn : n = 0
  · simp [hn] at h
  · simp [hn] at h
    have := Nat.mod_lt i (Nat.pos_of_ne_zero hn)
    omega

theorem vig_enc_char_eq (key : List Nat) (c i : Nat) :
    Vigenere.encryptChar key c i = KeywordSpec.encryptChar key c i := rfl

theorem vig_enc_loop_eq (key : List Nat) (m : List Nat) :
    ∀ acc i, Vigenere.encryptLoop key acc i m = KeywordSpec.encryptLoop key acc i m := by
  induction m with
  | nil => intro acc i; rfl
  | cons c rest ih =>
    intro acc i
    simp only [Vigenere.encryptLoop, KeywordSpec.encryptLoop, vig_enc_char_eq]
    by_cases hc : isalphaB c = true
    · simp only [hc, if_true]
      cases KeywordSpec.encryptChar key c i with
      | none => rfl
      | some e => exact ih (acc ++ [e]) (i + 1)
    · simp only [hc, if_false]
      exact ih (acc ++ [c]) (i + 1)

theorem vig_dec_char_eq (key : List Nat) (c k : Nat)
    (h : ∀ x ∈ key, isalphaB x = true) :
    Vigenere.decryptChar key c k = KeywordSpec.decryptChar key c k := by
  unfold Vigenere.decryptChar KeywordSpec.decryptChar
  cases hk : Vigenere.keyIndex k key.length with
  | none => rfl
  | some j =>
    have hj : j < key.length := keyIndex_some_lt hk
    have hmem : key.getD j 0 ∈ key := by
      rw [List.getD_eq_getElem?_getD, List.getElem?_eq_getElem hj, Option.getD_some]
      exact List.getElem_mem hj
    have halpha := h _ hmem
    have hshift : ∀ v : Nat, isalphaB v = true →
        ((if isupperB v then (v : Int) - 65 else (v : Int) - 97) + 1)
          = KeywordSpec.offset v := by
      intro v hv
      unfold KeywordSpec.offset
      unfold isalphaB at hv
      by_cases hu : isupperB v = true
      · simp [hu]
      · have hl : islowerB v = true := by
          rcases Bool.or_eq_true_iff.mp hv with h1 | h1
          · exact absurd h1 hu
          · exact h1
        simp [hu, hl]
    simp only [Option.map_some']
    rw [hshift _ halpha]

theorem vig_dec_loop_eq (key : List Nat) (h : ∀ x ∈ key, isalphaB x = true)
    (m : List Nat) :
    ∀ acc i, Vigenere.decryptLoop key acc i m = KeywordSpec.decryptLoop key acc i m := by
  induction m with
  | nil => intro acc i; rfl
  | cons c rest ih =>
    intro acc i
    simp only [Vigenere.decryptLoop, KeywordSpec.decryptLoop, vig_dec_char_eq key c i h]
    by_cases hc : isalphaB c = true
    · simp only [hc, if_true]
      cases KeywordSpec.decryptChar key c i with
      | none => rfl
      | some e => exact ih (acc ++ [e]) (i + 1)
    · simp only [hc, if_false]
      exact ih (acc ++ [c]) (i + 1)

/-- **C3**: the Vigenere round-trip `decrypt(encrypt(M, K), K) == M` fails on
the code: with keyword `"A"` (offset 1) the message `"Z"` encrypts to the
non-letter `'['` (byte 91, since `encryptChar` performs no modulo), which
`decrypt` passes through unchanged, returning `"["` instead of `"Z"`. -/
theorem vigenere_roundtrip_code_eval :
    Vigenere.encryptStr [65] [90] = some [91]
      ∧ Vigenere.decryptStr [65] [91] = some [91]
      ∧ some [91] ≠ (some [90] : Option (List Nat)) := by
  refine ⟨by decide, by decide, by decide⟩

/-- **C4**: an empty keyword is not rejected: `setKeyMessage` stores it
without any validation, and the transforms then reach the undefined
modulo-by-zero `i % messageKey.size()` on the first alphabetic message
character (modelled as `none`); no `InvalidKey` error exists in the code. -/
theorem vigenere_empty_key_undefined :
    (Vigenere.setKeyMessage ⟨[], [], [72]⟩ []).messageKey = []
      ∧ Vigenere.encryptStr [] [65] = none
      ∧ Vigenere.decryptStr [] [65] = none := by
  refine ⟨rfl, by decide, by decide⟩

/-- **C9 counterexample**: for the non-letter keyword character `'1'`
(byte 49) the backward transform does not use offset 0 as claimed: decrypting
`"A"` with keyword `"1"`, the code computes `shift = '1' - 'a' + 1 = -47` and
returns `'V'` (byte 86), while the claimed offset-0 rule returns `'A'`. -/
theorem vigenere_backward_offset_cex :
    Vigenere.decryptStr [49] [65] = some [86]
      ∧ KeywordSpec.decryptStr [49] [65] = some [65]
      ∧ Vigenere.decryptStr [49] [65] ≠ KeywordSpec.decryptStr [49] [65] := by
  refine ⟨by decide, by decide, by decide⟩

/-- **C9 (amended)**: the forward transform selects shifts exactly as the
claim states (offset of keyword character `i mod len`, 1-based for letters,
0 for non-letters, the index advancing on every message character); the
backward transform agrees with the claimed rule whenever every keyword
character is a letter (for non-letter keyword characters it instead applies
`(k - 'a') + 1`). -/
theorem vigenere_shift_selection_amended :
    (∀ key m : List Nat, Vigenere.encryptStr key m = KeywordSpec.encryptStr key m)
      ∧ ∀ key m : List Nat, (∀ x ∈ key, isalphaB x = true) →
          Vigenere.decryptStr key m = KeywordSpec.decryptStr key m := by
  constructor
  · intro key m
    exact vig_enc_loop_eq key m [] 0
  · intro key m h
    exact vig_dec_loop_eq key h m [] 0

/-- Witness for the amended C9: concrete evaluation with the all-letter
keyword `"Le"` on the message `"B1z"`. -/
theorem vigenere_shift_selection_witness :
    Vigenere.decryptStr [76, 101] [66, 49, 122] = KeywordSpec.decryptStr [76, 101] [66, 49, 122] :=
  vigenere_shift_selection_amended.2 [76, 101] [66, 49, 122] (by decide)

theorem isupperB_iff {c : Nat} : isupperB c = true ↔ 65 ≤ c ∧ c ≤ 90 := by
  unfold isupperB
  simp [Bool.and_eq_true, decide_eq_true_eq]

theorem islowerB_iff {c : Nat} : islowerB c = true ↔ 97 ≤ c ∧ c ≤ 122 := by
  unfold islowerB
  simp [Bool.and_eq_true, decide_eq_true_eq]

theorem isalphaB_iff {c : Nat} :
    isalphaB c = true ↔ (65 ≤ c ∧ c ≤ 90) ∨ (97 ≤ c ∧ c ≤ 122) := by
  unfold isalphaB
  simp [Bool.or_eq_true_iff, isupperB_iff, islowerB_iff]

theorem atbash_step_invol (c : Nat) : Atbash.step (Atbash.step c) = c := by
  by_cases hu : isupperB c = true
  · have h := isupperB_iff.mp hu
    have ha : isalphaB c = true := isalphaB_iff.mpr (Or.inl h)
    have hv : Atbash.step c = 155 - c := by
      unfold Atbash.step Atbash.encryptChar toChar
      rw [if_pos ha, if_pos hu]
      omega
    have hu2 : isupperB (155 - c) = true := isupperB_iff.mpr ⟨by omega, by omega⟩
    have ha2 : isalphaB (155 - c) = true :=
      isalphaB_iff.mpr (Or.inl (isupperB_iff.mp hu2))
    rw [hv]
    unfold Atbash.step Atbash.encryptChar toChar
    rw [if_pos ha2, if_pos hu2]
    omega
  · by_cases hl : islowerB c = true
    · have h := islowerB_iff.mp hl
      have ha : isalphaB c = true := isalphaB_iff.mpr (Or.inr h)
      have hv : Atbash.step c = 219 - c := by
        unfold Atbash.step Atbash.encryptChar toChar
        rw [if_pos ha, if_neg hu, if_pos hl]
        omega
      have hu2 : ¬isupperB (219 - c) = true := by
        intro hx
        have := isupperB_iff.mp hx
        omega
      have hl2 : islowerB (219 - c) = true := islowerB_iff.mpr ⟨by omega, by omega⟩
      have ha2 : isalphaB (219 - c) = true :=
        isalphaB_iff.mpr (Or.inr (islowerB_iff.mp hl2))
      rw [hv]
      unfold Atbash.step Atbash.encryptChar toChar
      rw [if_pos ha2, if_neg hu2, if_pos hl2]
      omega
    · have ha : ¬isalphaB c = true := by
        intro hx
        rcases isalphaB_iff.mp hx with h | h
        · exact hu (isupperB_iff.mpr h)
        · exact hl (islowerB_iff.mpr h)
      have hv : Atbash.step c = c := by
        unfold Atbash.step
        rw [if_neg ha]
      rw [hv, hv]

theorem atbash_loop_append (m : List Nat) :
    ∀ acc, Atbash.encryptLoop acc m = acc ++ Atbash.encryptLoop [] m := by
  induction m with
  | nil =>
    intro acc
    simp [Atbash.encryptLoop]
  | cons c rest ih =>
    intro acc
    unfold Atbash.encryptLoop
    by_cases hc : isalphaB c = true
    · rw [if_pos hc, if_pos hc, ih (acc ++ [Atbash.encryptChar c]),
        ih ([] ++ [Atbash.encryptChar c])]
      simp
    · rw [if_neg hc, if_neg hc, ih (acc ++ [c]), ih ([] ++ [c])]
      simp

theorem atbash_loop_eq_map (m : List Nat) :
    Atbash.encryptLoop [] m = m.map Atbash.step := by
  induction m with
  | nil => rfl
  | cons c rest ih =>
    unfold Atbash.encryptLoop
    by_cases hc : isalphaB c = true
    · rw [if_pos hc, atbash_loop_append rest ([] ++ [Atbash.encryptChar c])]
      simp only [List.nil_append, List.map_cons, ih, List.singleton_append]
      unfold Atbash.step
      rw [if_pos hc]
    · rw [if_neg hc, atbash_loop_append rest ([] ++ [c])]
      simp only [List.nil_append, List.map_cons, ih, List.singleton_append]
      unfold Atbash.step
      rw [if_neg hc]

/-- **C7**: the Atbash transform is an involution on every message, the
backward transform is literally the forward one, and the per-character map
is exactly the claimed alphabet mirror. -/
theorem atbash_involution :
    (∀ m : List Nat, Atbash.encryptStr (Atbash.encryptStr m) = m)
      ∧ (∀ s : AtbashState, Atbash.decrypt s = Atbash.encrypt s)
      ∧ (∀ c : Nat, Atbash.encryptChar c = MirrorSpec.encryptChar c) := by
  refine ⟨?_, fun s => rfl, ?_⟩
  · intro m
    unfold Atbash.encryptStr Atbash.encrypt
    simp only [atbash_loop_eq_map, List.map_map]
    induction m with
    | nil => rfl
    | cons c rest ih =>
      simp only [List.map_cons, List.map_map] at ih ⊢
      rw [ih]
      simp only [Function.comp_apply, atbash_step_invol]
  · intro c
    unfold Atbash.encryptChar MirrorSpec.encryptChar toChar
    by_cases hu : isupperB c = true
    · have h := isupperB_iff.mp hu
      rw [if_pos hu, if_pos hu]
      omega
    · by_cases hl : islowerB c = true
      · have h := islowerB_iff.mp hl
        rw [if_neg hu, if_neg hu, if_pos hl, if_pos hl]
        omega
      · rw [if_neg hu, if_neg hu, if_neg hl, if_neg hl]

theorem a1z26_enc_loop_append (m : List Nat) :
    ∀ acc, A1Z26.encryptLoop acc m = acc ++ A1Z26.encryptLoop [] m := by
  induction m with
  | nil =>
    intro acc
    simp [A1Z26.encryptLoop]
  | cons c rest ih =>
    intro acc
    unfold A1Z26.encryptLoop
    by_cases ha : isalphaB c = true
    · rw [if_pos ha, if_pos ha, ih (acc ++ A1Z26.encryptChar c),
        ih ([] ++ A1Z26.encryptChar c)]
      simp
    · by_cases hd : isdigitB c = true
      · rw [if_neg ha, if_neg ha, if_pos hd, if_pos hd,
          ih (acc ++ [toChar ((c : Int) + 48)]), ih ([] ++ [toChar ((c : Int) + 48)])]
        simp
      · rw [if_neg ha, if_neg ha, if_neg hd, if_neg hd, ih (acc ++ [c]), ih ([] ++ [c])]
        simp

theorem a1z26_dec_loop_append_fuel :
    ∀ n (m : List Nat), m.length ≤ n →
      ∀ acc, A1Z26.decryptLoop acc m = acc ++ A1Z26.decryptLoop [] m := by
  intro n
  induction n with
  | zero =>
    intro m hm acc
    cases m with
    | nil => simp [A1Z26.decryptLoop]
    | cons c rest => simp at hm
  | succ n ih =>
    intro m hm acc
    cases m with
    | nil => simp [A1Z26.decryptLoop]
    | cons c rest =>
      have hrest : rest.length ≤ n := by
        simp only [List.length_cons] at hm
        omega
      unfold A1Z26.decryptLoop
      by_cases hd : isdigitB c = true
      · rw [if_pos hd, if_pos hd]
        cases rest with
        | nil => simp
        | cons b tail =>
          have htail : tail.length ≤ n := by
            simp only [List.length_cons] at hrest
            omega
          show A1Z26.decryptLoop (acc ++ [toChar (97 + (A1Z26.stoi [c, b] : Int) - 1)]) tail
            = acc ++ A1Z26.decryptLoop ([] ++ [toChar (97 + (A1Z26.stoi [c, b] : Int) - 1)]) tail
          rw [ih tail htail (acc ++ [toChar (97 + (A1Z26.stoi [c, b] : Int) - 1)]),
            ih tail htail ([] ++ [toChar (97 + (A1Z26.stoi [c, b] : Int) - 1)])]
          simp
      · by_cases ha : isalphaB c = true
        · rw [if_neg hd, if_neg hd, if_pos ha, if_pos ha,
            ih rest hrest (acc ++ A1Z26.decDigits (tolowerB c - 96)),
            ih rest hrest ([] ++ A1Z26.decDigits (tolowerB c - 96))]
          simp
        · rw [if_neg hd, if_neg hd, if_neg ha, if_neg ha,
            ih rest hrest (acc ++ [c]), ih rest hrest ([] ++ [c])]
          simp

theorem a1z26_dec_loop_append (m : List Nat) (acc : List Nat) :
    A1Z26.decryptLoop acc m = acc ++ A1Z26.decryptLoop [] m :=
  a1z26_dec_loop_append_fuel m.length m (le_refl _) acc

theorem a1z26_char_facts :
    ∀ c < 123, isalphaB c = true →
      A1Z26.encryptChar c
          = [48 + (tolowerB c - 96) / 10, 48 + (tolowerB c - 96) % 10]
        ∧ isdigitB (48 + (tolowerB c - 96) / 10) = true
        ∧ A1Z26.stoi [48 + (tolowerB c - 96) / 10, 48 + (tolowerB c - 96) % 10]
          = tolowerB c - 96
        ∧ toChar (97 + ((tolowerB c - 96 : Nat) : Int) - 1) = tolowerB c := by
  decide

theorem isalphaB_lt_123 {c : Nat} (h : isalphaB c = true) : c < 123 := by
  rcases isalphaB_iff.mp h with h1 | h1 <;> omega

theorem a1z26_roundtrip_aux (L : List Nat) (h : ∀ c ∈ L, isalphaB c = true) :
    A1Z26.decryptLoop [] (A1Z26.encryptLoop [] L) = L.map tolowerB := by
  induction L with
  | nil => rfl
  | cons c rest ih =>
    have hc : isalphaB c = true := h c (by simp)
    obtain ⟨he, hd, hs, ht⟩ := a1z26_char_facts c (isalphaB_lt_123 hc) hc
    unfold A1Z26.encryptLoop
    rw [if_pos hc, a1z26_enc_loop_append rest ([] ++ A1Z26.encryptChar c)]
    simp only [List.nil_append]
    rw [he]
    show A1Z26.decryptLoop []
        ((48 + (tolowerB c - 96) / 10) :: (48 + (tolowerB c - 96) % 10)
          :: A1Z26.encryptLoop [] rest)
      = (c :: rest).map tolowerB
    unfold A1Z26.decryptLoop
    rw [if_pos hd]
    show A1Z26.decryptLoop
        ([] ++ [toChar (97 + (A1Z26.stoi [48 + (tolowerB c - 96) / 10,
          48 + (tolowerB c - 96) % 10] : Int) - 1)])
        (A1Z26.encryptLoop [] rest)
      = (c :: rest).map tolowerB
    rw [hs, ht, a1z26_dec_loop_append (A1Z26.encryptLoop [] rest) ([] ++ [tolowerB c])]
    simp only [List.nil_append, List.singleton_append, List.map_cons]
    rw [ih (fun x hx => h x (List.mem_cons_of_mem c hx))]

/-- **C5**: A1Z26 decode does not signal any error on malformed input: a
trailing lone digit is silently parsed as a one-digit group (`substr`
clamps), so decoding `"5"` produces `"e"`, and an out-of-range two-digit
group is silently mapped through the char conversion, so decoding `"99"`
produces the byte 195; no `MalformedInput` error exists in the code. -/
theorem a1z26_decode_malformed_silent :
    A1Z26.decryptStr [53] = [101]
      ∧ A1Z26.decryptStr [57, 57] = [195] := by
  refine ⟨by decide, by decide⟩

/-- **C6**: for every message of alphabetic characters, A1Z26 decode of
encode returns the lowercase form of the message (each letter encodes to
exactly two zero-padded decimal digits and each two-digit group `n` decodes
to `'a' + n - 1`); in particular `encode("HELLO") = "0805121215"`. -/
theorem a1z26_alpha_roundtrip :
    (∀ L : List Nat, (∀ c ∈ L, isalphaB c = true) →
        A1Z26.decryptStr (A1Z26.encryptStr L) = L.map tolowerB)
      ∧ A1Z26.encryptStr [72, 69, 76, 76, 79]
        = [48, 56, 48, 53, 49, 50, 49, 50, 49, 53] := by
  constructor
  · intro L h
    unfold A1Z26.decryptStr A1Z26.encryptStr A1Z26.decrypt A1Z26.encrypt
    exact a1z26_roundtrip_aux L h
  · decide

/-- Witness for C6: concrete evaluation on the message `"HELLO"`. -/
theorem a1z26_alpha_roundtrip_witness :
    A1Z26.decryptStr (A1Z26.encryptStr [72, 69, 76, 76, 79])
      = [104, 101, 108, 108, 111] := by
  have := a1z26_alpha_roundtrip.1 [72, 69, 76, 76, 79] (by decide)
  rw [this]
  decide

/-- **C10**: the stored result field is not cleared uniformly: Caesar and
Vigenere clear `encrypted_message` at the start of every transform, so the
result is independent of any previously stored output, while Atbash and
A1Z26 never clear it, so a second `encrypt()` or `decrypt()` call (with any
message then stored) appends, and `getEncryptedMessage()` returns the
previous output concatenated with the new one. -/
theorem result_clearing_asymmetry :
    (∀ (m old : List Nat) (k : Int),
        (Caesar.encrypt ⟨m, old, k⟩).encrypted_message
          = (Caesar.encrypt ⟨m, [], k⟩).encrypted_message)
      ∧ (∀ (m old : List Nat) (k : Int),
        (Caesar.decrypt ⟨m, old, k⟩).encrypted_message
          = (Caesar.decrypt ⟨m, [], k⟩).encrypted_message)
      ∧ (∀ m old key : List Nat,
        (Vigenere.encrypt ⟨m, old, key⟩).map VigenereState.encrypted_message
          = (Vigenere.encrypt ⟨m, [], key⟩).map VigenereState.encrypted_message)
      ∧ (∀ m old key : List Nat,
        (Vigenere.decrypt ⟨m, old, key⟩).map VigenereState.encrypted_message
          = (Vigenere.decrypt ⟨m, [], key⟩).map VigenereState.encrypted_message)
      ∧ (∀ m old : List Nat,
        (Atbash.encrypt ⟨m, old⟩).encrypted_message
          = old ++ (Atbash.encrypt ⟨m, []⟩).encrypted_message)
      ∧ (∀ m old : List Nat,
        (Atbash.decrypt ⟨m, old⟩).encrypted_message
          = old ++ (Atbash.decrypt ⟨m, []⟩).encrypted_message)
      ∧ (∀ m old : List Nat,
        (A1Z26.encrypt ⟨m, old⟩).encrypted_message
          = old ++ (A1Z26.encrypt ⟨m, []⟩).encrypted_message)
      ∧ (∀ m old : List Nat,
        (A1Z26.decrypt ⟨m, old⟩).encrypted_message
          = old ++ (A1Z26.decrypt ⟨m, []⟩).encrypted_message) := by
  refine ⟨fun m old k => rfl, fun m old k => rfl, fun m old key => rfl,
    fun m old key => rfl, ?_, ?_, ?_, ?_⟩
  · intro m old
    show Atbash.encryptLoop old m = old ++ Atbash.encryptLoop [] m
    exact atbash_loop_append m old
  · intro m old
    show Atbash.encryptLoop old m = old ++ Atbash.encryptLoop [] m
    exact atbash_loop_append m old
  · intro m old
    show A1Z26.encryptLoop old m = old ++ A1Z26.encryptLoop [] m
    exact a1z26_enc_loop_append m old
  · intro m old
    show A1Z26.decryptLoop old m = old ++ A1Z26.decryptLoop [] m
    exact a1z26_dec_loop_append m old
